import Mathlib

/-!
Shallow embedding of the pair-search core of PyMusicLooper's `rust_analysis`
module (`src/lib.rs`): the helpers `l2_norm` and `db_diff` and the public
function `detect_loop_pairs`.

Modelling choices:
* `f32` values are modelled by `FVal`: either NaN, `+inf`, `-inf`, or a finite
  value carried as an exact rational.  Finite arithmetic is modelled exactly
  (rounding is not modelled; no claim below depends on rounding), while the
  NaN / infinity propagation rules of IEEE 754 and of Rust's `f32::max`
  ("ignore NaN") are modelled faithfully.  `sqrt` is modelled by a computable
  approximate square root which is exact on the only inputs the proofs below
  evaluate it at (`sqrt 0 = 0`): the source's `sqrt` is likewise exact there.
* `usize` arithmetic is modelled on `Nat` with the release-mode wrapping
  subtraction `usizeSub` (mod 2^64), as described by the repository's design
  notes.
* `ndarray` column slicing panics on an out-of-range column index, and
  `Option::unwrap` panics on `None`; a panic aborts the whole call, which is
  modelled by `Except Unit` (`Except.error ()` = the call panicked, nothing
  is returned).
* The 2-D feature matrices are modelled by `Mat` (row count, column count and
  an entry function); a column slice `m.slice(s![.., j])` becomes `Mat.col?`.
-/

namespace RustAnalysis

/-- Model of an `f32` value: NaN, the two infinities, or an exact finite
rational value. -/
inductive FVal where
  | nan : FVal
  | inf : FVal
  | neginf : FVal
  | fin (q : ℚ) : FVal
  deriving DecidableEq, Repr

open FVal

/-- IEEE `<=` on modelled `f32` values: any comparison involving NaN is
false; `-inf <= x`, `x <= +inf` for non-NaN `x`; finite values compare as
rationals. -/
def fle : FVal → FVal → Bool
  | nan, _ => false
  | _, nan => false
  | neginf, _ => true
  | inf, inf => true
  | inf, _ => false
  | fin _, inf => true
  | fin _, neginf => false
  | fin a, fin b => decide (a ≤ b)

/-- Rust `f32::max` (returns the other operand when one is NaN, otherwise the
larger). -/
def fmax : FVal → FVal → FVal
  | nan, b => b
  | a, nan => a
  | a, b => if fle a b then b else a

/-- IEEE addition on modelled values (finite part exact). -/
def fadd : FVal → FVal → FVal
  | nan, _ => nan
  | _, nan => nan
  | inf, neginf => nan
  | neginf, inf => nan
  | inf, _ => inf
  | _, inf => inf
  | neginf, _ => neginf
  | _, neginf => neginf
  | fin a, fin b => fin (a + b)

/-- IEEE subtraction on modelled values (finite part exact). -/
def fsub : FVal → FVal → FVal
  | nan, _ => nan
  | _, nan => nan
  | inf, inf => nan
  | neginf, neginf => nan
  | inf, _ => inf
  | neginf, _ => neginf
  | _, inf => neginf
  | _, neginf => inf
  | fin a, fin b => fin (a - b)

/-- IEEE multiplication on modelled values (finite part exact);
`0 * ±inf = NaN`. -/
def fmul : FVal → FVal → FVal
  | nan, _ => nan
  | _, nan => nan
  | inf, inf => inf
  | inf, neginf => neginf
  | neginf, inf => neginf
  | neginf, neginf => inf
  | inf, fin q => if 0 < q then inf else if q < 0 then neginf else nan
  | fin q, inf => if 0 < q then inf else if q < 0 then neginf else nan
  | neginf, fin q => if 0 < q then neginf else if q < 0 then inf else nan
  | fin q, neginf => if 0 < q then neginf else if q < 0 then inf else nan
  | fin a, fin b => fin (a * b)

/-- IEEE absolute value on modelled values. -/
def fabs : FVal → FVal
  | nan => nan
  | inf => inf
  | neginf => inf
  | fin a => fin |a|

/-- Fuel-based integer square root (largest `k ≤ fuel` with `k * k ≤ n`),
used to model the (approximate) `f32` square root computably.  It is exact on
perfect squares, in particular `natSqrt 0 = 0`. -/
def sqrtFuel : Nat → Nat → Nat
  | 0, _ => 0
  | f + 1, n => if (f + 1) * (f + 1) ≤ n then f + 1 else sqrtFuel f n

/-- Integer square root via `sqrtFuel` (the fuel `n` always suffices). -/
def natSqrt (n : Nat) : Nat := sqrtFuel n n

/-- Computable approximate rational square root (exact at 0, the only place
the development evaluates it). -/
def ratSqrt (q : ℚ) : ℚ := (natSqrt q.num.toNat : ℚ) / (natSqrt q.den : ℚ)

/-- IEEE square root on modelled values: NaN on negative inputs (and NaN),
`+inf` on `+inf`, and the modelled finite square root otherwise. -/
def fsqrt : FVal → FVal
  | nan => nan
  | neginf => nan
  | inf => inf
  | fin q => if q < 0 then nan else fin (ratSqrt q)

/-- Embedding of the helper `l2_norm` of `src/lib.rs`: the square root of the
sum (left fold starting from `0.0`, as Rust's `Iterator::sum` for `f32`) of
the squares of the elements. -/
def l2_norm (a : List FVal) : FVal :=
  fsqrt ((a.map (fun x => fmul x x)).foldl fadd (fin 0))

/-- Embedding of the helper `db_diff` of `src/lib.rs`: the absolute
difference of the two peak loudness values, each computed by folding
`f32::max` starting from `f32::NEG_INFINITY`. -/
def db_diff (power_db_f1 power_db_f2 : List FVal) : FVal :=
  fabs (fsub (power_db_f1.foldl fmax neginf) (power_db_f2.foldl fmax neginf))

/-- `2 ^ 64`, the modulus of `usize` arithmetic on the 64-bit targets the
crate is built for. -/
def U64 : Nat := 18446744073709551616

/-- Wrapping (release-mode) `usize` subtraction: `a - b` modulo `2^64`. -/
def usizeSub (a b : Nat) : Nat :=
  (((a : Int) - (b : Int)) % (U64 : Int)).toNat

/-- A dense 2-D `f32` matrix of shape `rows × cols` (row index first, as the
`(channels × totalFrames)` ndarrays of the source). -/
structure Mat where
  rows : Nat
  cols : Nat
  entry : Nat → Nat → FVal

/-- Column slice `m.slice(s![.., j])`: the `j`-th column as a list of `rows`
entries, or `none` (a panic) when `j` is not a valid column index. -/
def Mat.col? (A : Mat) (j : Nat) : Option (List FVal) :=
  if j < A.cols then some ((List.range A.rows).map fun i => A.entry i j) else none

/-- The non-list arguments of `detect_loop_pairs`, bundled (field names
follow the Rust parameter names). -/
structure Ctx where
  chroma : Mat
  power_db : Mat
  acceptable_chroma_deviation : List FVal
  min_loop_duration : Nat
  max_loop_duration : Nat
  acceptable_loudness_difference : FVal

/-- Outcome of one iteration of the inner `loop_start` loop body:
`brk` = the `break` on a too-short length, `skip` = a `continue` (too long,
or a failed tolerance check), `panic` = an out-of-bounds slice or a failed
`unwrap`, `emit p` = `candidate_pairs.push(p)`. -/
inductive StepRes where
  | brk : StepRes
  | skip : StepRes
  | panic : StepRes
  | emit (p : Nat × Nat × FVal × FVal) : StepRes
  deriving DecidableEq, Repr

/-- Embedding of the body of the inner `for &loop_start in beats.iter()`
loop of `detect_loop_pairs` (`src/lib.rs` lines 41–71), for outer index
`idx`, end `loop_end` and the current `loop_start`. -/
def scanStep (c : Ctx) (idx loop_end loop_start : Nat) : StepRes :=
  let loop_length := usizeSub loop_end loop_start
  if loop_length < c.min_loop_duration then StepRes.brk
  else if loop_length > c.max_loop_duration then StepRes.skip
  else
    match c.chroma.col? loop_end, c.chroma.col? loop_start with
    | some ce, some cs =>
        let note_distance := l2_norm (List.zipWith fsub ce cs)
        match c.acceptable_chroma_deviation[idx]? with
        | some tol =>
            if fle note_distance tol then
              match c.power_db.col? loop_end, c.power_db.col? loop_start with
              | some pe, some ps =>
                  let loudness_difference := db_diff pe ps
                  if fle loudness_difference c.acceptable_loudness_difference then
                    StepRes.emit (loop_start, loop_end, note_distance, loudness_difference)
                  else StepRes.skip
              | _, _ => StepRes.panic
            else StepRes.skip
        | none => StepRes.panic
    | _, _ => StepRes.panic

/-- Embedding of the inner `loop_start` loop of `detect_loop_pairs`: scan the
given list of candidate starts in order, stopping at a `break`, aborting the
whole call at a panic, and collecting emitted pairs in scan order. -/
def innerScan (c : Ctx) (idx loop_end : Nat) : List Nat → Except Unit (List (Nat × Nat × FVal × FVal))
  | [] => Except.ok []
  | loop_start :: rest =>
    match scanStep c idx loop_end loop_start with
    | StepRes.brk => Except.ok []
    | StepRes.panic => Except.error ()
    | StepRes.skip => innerScan c idx loop_end rest
    | StepRes.emit p =>
        match innerScan c idx loop_end rest with
        | Except.error e => Except.error e
        | Except.ok l => Except.ok (p :: l)

/-- Embedding of the outer `for (idx, &loop_end) in beats.iter().enumerate()`
loop of `detect_loop_pairs`: `beats_all` is the full beat list scanned by
every inner loop, `idx` the index of the first element of the remaining end
list. -/
def scanEnds (c : Ctx) (beats_all : List Nat) (idx : Nat) : List Nat → Except Unit (List (Nat × Nat × FVal × FVal))
  | [] => Except.ok []
  | loop_end :: rest =>
    match innerScan c idx loop_end beats_all with
    | Except.error e => Except.error e
    | Except.ok l1 =>
        match scanEnds c beats_all (idx + 1) rest with
        | Except.error e => Except.error e
        | Except.ok l2 => Except.ok (l1 ++ l2)

/-- Embedding of `detect_loop_pairs` (`src/lib.rs` lines 25–75). -/
def detect_loop_pairs (c : Ctx) (beats : List Nat) : Except Unit (List (Nat × Nat × FVal × FVal)) :=
  scanEnds c beats 0 beats

/-! Characterization of the scans as ordered list transformations. -/

/-- The guard of the early `break`: a candidate `loop_start` survives it when
the wrapped loop length is not below the minimum duration. -/
def innerPred (c : Ctx) (loop_end loop_start : Nat) : Bool :=
  decide (c.min_loop_duration ≤ usizeSub loop_end loop_start)

/-- The pair emitted (if any) by one non-breaking iteration of the inner
loop body. -/
def emitOf (c : Ctx) (idx loop_end loop_start : Nat) : Option (Nat × Nat × FVal × FVal) :=
  match scanStep c idx loop_end loop_start with
  | StepRes.emit p => some p
  | _ => none

/-- The pairs the inner loop emits for one end position, in inner scan
order: the candidate starts are scanned in beat-list order up to the first
one pruned by the early break, and each emitted pair appears at its start's
scan position. -/
def emitsFor (c : Ctx) (beats_all : List Nat) (idx loop_end : Nat) : List (Nat × Nat × FVal × FVal) :=
  (beats_all.takeWhile (innerPred c loop_end)).filterMap (emitOf c idx loop_end)

/-- The output sequence in the nested scan order the specification
describes: grouped by candidate end position in ascending beat-list order,
and within one end position in ascending inner scan order over the
candidate starts. -/
def nestedScanOrder (c : Ctx) (beats : List Nat) : List (Nat × Nat × FVal × FVal) :=
  beats.enum.flatMap fun ie => emitsFor c beats ie.1 ie.2

/-! Basic facts about the wrapping subtraction. -/

theorem usizeSub_self (a : Nat) : usizeSub a a = 0 := by
  unfold usizeSub U64; omega

theorem usizeSub_of_le {a b : Nat} (h : b ≤ a) (ha : a < U64) : usizeSub a b = a - b := by
  unfold usizeSub; unfold U64 at *; omega

theorem usizeSub_of_lt {a b : Nat} (h : a < b) (hb : b < U64) :
    usizeSub a b = U64 - (b - a) := by
  unfold usizeSub; unfold U64 at *; omega

/-! Case analysis lemmas for one iteration of the inner loop body. -/

theorem scanStep_eq_brk_iff {c : Ctx} {idx loop_end loop_start : Nat} :
    scanStep c idx loop_end loop_start = StepRes.brk ↔
      usizeSub loop_end loop_start < c.min_loop_duration := by
  unfold scanStep
  rcases Nat.lt_or_ge (usizeSub loop_end loop_start) c.min_loop_duration with h | h
  · simp [h]
  · simp only [if_neg (Nat.not_lt.2 h)]
    constructor
    · intro hbrk
      exfalso
      repeat' split at hbrk
      all_goals exact StepRes.noConfusion hbrk
    · intro hlt; omega

theorem scanStep_ne_panic {c : Ctx} {idx loop_end loop_start : Nat}
    (hce : loop_end < c.chroma.cols) (hcs : loop_start < c.chroma.cols)
    (hpe : loop_end < c.power_db.cols) (hps : loop_start < c.power_db.cols)
    (hidx : idx < c.acceptable_chroma_deviation.length) :
    scanStep c idx loop_end loop_start ≠ StepRes.panic := by
  unfold scanStep
  simp only [Mat.col?, if_pos hce, if_pos hcs, if_pos hpe, if_pos hps,
    List.getElem?_eq_getElem hidx]
  intro hpan
  repeat' split at hpan
  all_goals exact StepRes.noConfusion hpan

theorem scanStep_emit_spec {c : Ctx} {idx loop_end loop_start : Nat}
    {p : Nat × Nat × FVal × FVal}
    (h : scanStep c idx loop_end loop_start = StepRes.emit p) :
    ∃ ce cs tol pe pw,
      c.chroma.col? loop_end = some ce ∧ c.chroma.col? loop_start = some cs ∧
      c.acceptable_chroma_deviation[idx]? = some tol ∧
      c.power_db.col? loop_end = some pe ∧ c.power_db.col? loop_start = some pw ∧
      p = (loop_start, loop_end, l2_norm (List.zipWith fsub ce cs), db_diff pe pw) ∧
      c.min_loop_duration ≤ usizeSub loop_end loop_start ∧
      usizeSub loop_end loop_start ≤ c.max_loop_duration ∧
      fle (l2_norm (List.zipWith fsub ce cs)) tol = true ∧
      fle (db_diff pe pw) c.acceptable_loudness_difference = true := by
  unfold scanStep at h
  by_cases hA : usizeSub loop_end loop_start < c.min_loop_duration
  · rw [if_pos hA] at h; exact StepRes.noConfusion h
  rw [if_neg hA] at h
  by_cases hB : usizeSub loop_end loop_start > c.max_loop_duration
  · rw [if_pos hB] at h; exact StepRes.noConfusion h
  rw [if_neg hB] at h
  cases hce : c.chroma.col? loop_end with
  | none =>
      cases hcs : c.chroma.col? loop_start <;> simp only [hce, hcs] at h <;>
        exact StepRes.noConfusion h
  | some ce =>
  cases hcs : c.chroma.col? loop_start with
  | none => simp only [hce, hcs] at h; exact StepRes.noConfusion h
  | some cs =>
  simp only [hce, hcs] at h
  cases ht : c.acceptable_chroma_deviation[idx]? with
  | none => simp only [ht] at h; exact StepRes.noConfusion h
  | some t =>
  simp only [ht] at h
  by_cases hd : fle (l2_norm (List.zipWith fsub ce cs)) t = true
  · rw [if_pos hd] at h
    cases hpe : c.power_db.col? loop_end with
    | none =>
        cases hpw : c.power_db.col? loop_start <;> simp only [hpe, hpw] at h <;>
          exact StepRes.noConfusion h
    | some pe =>
    cases hpw : c.power_db.col? loop_start with
    | none => simp only [hpe, hpw] at h; exact StepRes.noConfusion h
    | some pw =>
    simp only [hpe, hpw] at h
    by_cases hl : fle (db_diff pe pw) c.acceptable_loudness_difference = true
    · rw [if_pos hl] at h
      cases h
      exact ⟨ce, cs, t, pe, pw, rfl, rfl, rfl, rfl, rfl, rfl,
        Nat.not_lt.1 hA, Nat.not_lt.1 hB, hd, hl⟩
    · rw [if_neg hl] at h; exact StepRes.noConfusion h
  · rw [if_neg hd] at h; exact StepRes.noConfusion h

theorem scanStep_eq_emit {c : Ctx} {idx loop_end loop_start : Nat}
    {ce cs pe pw : List FVal} {t : FVal}
    (hce : c.chroma.col? loop_end = some ce) (hcs : c.chroma.col? loop_start = some cs)
    (ht : c.acceptable_chroma_deviation[idx]? = some t)
    (hpe : c.power_db.col? loop_end = some pe) (hpw : c.power_db.col? loop_start = some pw)
    (hmin : c.min_loop_duration ≤ usizeSub loop_end loop_start)
    (hmax : usizeSub loop_end loop_start ≤ c.max_loop_duration)
    (hd : fle (l2_norm (List.zipWith fsub ce cs)) t = true)
    (hl : fle (db_diff pe pw) c.acceptable_loudness_difference = true) :
    scanStep c idx loop_end loop_start =
      StepRes.emit (loop_start, loop_end, l2_norm (List.zipWith fsub ce cs), db_diff pe pw) := by
  unfold scanStep
  rw [if_neg (Nat.not_lt.2 hmin), if_neg (Nat.not_lt.2 hmax)]
  simp only [hce, hcs, ht, hpe, hpw, hd, hl, if_pos, if_true]

theorem innerScan_eq {c : Ctx} {idx loop_end : Nat} {l : List Nat}
    (h : ∀ s ∈ l, scanStep c idx loop_end s ≠ StepRes.panic) :
    innerScan c idx loop_end l =
      Except.ok ((l.takeWhile (innerPred c loop_end)).filterMap (emitOf c idx loop_end)) := by
  induction l with
  | nil => simp [innerScan]
  | cons s rest ih =>
    have hs := h s (List.mem_cons_self s rest)
    have ihr := ih fun x hx => h x (List.mem_cons_of_mem s hx)
    cases hstep : scanStep c idx loop_end s with
    | brk =>
        have hp : innerPred c loop_end s = false := by
          have := scanStep_eq_brk_iff.1 hstep
          simp [innerPred]; omega
        simp [innerScan, hstep, List.takeWhile_cons, hp]
    | panic => exact absurd hstep hs
    | skip =>
        have hp : innerPred c loop_end s = true := by
          have := @scanStep_eq_brk_iff c idx loop_end s
          simp [innerPred]
          rcases Nat.lt_or_ge (usizeSub loop_end s) c.min_loop_duration with hlt | hge
          · rw [hstep] at this; exact absurd (this.2 hlt) (by simp)
          · exact hge
        simp [innerScan, hstep, List.takeWhile_cons, hp, emitOf, ihr]
    | emit p =>
        have hp : innerPred c loop_end s = true := by
          have := @scanStep_eq_brk_iff c idx loop_end s
          simp [innerPred]
          rcases Nat.lt_or_ge (usizeSub loop_end s) c.min_loop_duration with hlt | hge
          · rw [hstep] at this; exact absurd (this.2 hlt) (by simp)
          · exact hge
        simp [innerScan, hstep, List.takeWhile_cons, hp, emitOf, ihr]

theorem scanEnds_eq {c : Ctx} {beats_all : List Nat} {es : List Nat} {idx : Nat}
    (h : ∀ ie ∈ es.enumFrom idx, ∀ s ∈ beats_all,
      scanStep c ie.1 ie.2 s ≠ StepRes.panic) :
    scanEnds c beats_all idx es =
      Except.ok ((es.enumFrom idx).flatMap fun ie => emitsFor c beats_all ie.1 ie.2) := by
  induction es generalizing idx with
  | nil => simp [scanEnds]
  | cons e rest ih =>
    have hhead : ∀ s ∈ beats_all, scanStep c idx e s ≠ StepRes.panic := by
      intro s hs
      exact h (idx, e) (by simp [List.enumFrom]) s hs
    have htail := @ih (idx + 1) fun ie hie s hs =>
      h ie (by simp [List.enumFrom, hie]) s hs
    simp [scanEnds, innerScan_eq hhead, htail, List.enumFrom, emitsFor]

theorem detect_loop_pairs_ok {c : Ctx} {beats : List Nat}
    (hch : ∀ b ∈ beats, b < c.chroma.cols)
    (hpw : ∀ b ∈ beats, b < c.power_db.cols)
    (htol : beats.length ≤ c.acceptable_chroma_deviation.length) :
    detect_loop_pairs c beats = Except.ok (nestedScanOrder c beats) := by
  unfold detect_loop_pairs nestedScanOrder List.enum
  apply scanEnds_eq
  intro ie hie s hs
  have h1 : ie.1 < beats.length ∧ ie.2 ∈ beats := by
    rcases ie with ⟨i, e⟩
    have := List.mem_enum_iff_getElem?.1 (by simpa [List.enum] using hie)
    rcases List.getElem?_eq_some.1 this with ⟨hlen, hget⟩
    exact ⟨hlen, hget ▸ List.getElem_mem hlen⟩
  exact scanStep_ne_panic (hch ie.2 h1.2) (hch s hs) (hpw ie.2 h1.2) (hpw s hs)
    (Nat.lt_of_lt_of_le h1.1 htol)

/-! Small list facts used below. -/

theorem mem_of_mem_takeWhile {α : Type} {p : α → Bool} {l : List α} {a : α}
    (h : a ∈ l.takeWhile p) : a ∈ l := by
  induction l with
  | nil => simp [List.takeWhile] at h
  | cons x xs ih =>
    rw [List.takeWhile_cons] at h
    by_cases hp : p x = true
    · rw [if_pos hp] at h
      rcases List.mem_cons.1 h with h | h
      · exact h ▸ List.mem_cons_self x xs
      · exact List.mem_cons_of_mem x (ih h)
    · rw [if_neg hp] at h; cases h

theorem get_mem_takeWhile_of_forall {α : Type} {p : α → Bool} {l : List α} {j : Nat}
    (hj : j < l.length)
    (h : ∀ m, (hm : m < l.length) → m ≤ j → p (l.get ⟨m, hm⟩) = true) :
    l.get ⟨j, hj⟩ ∈ l.takeWhile p := by
  induction l generalizing j with
  | nil => cases hj
  | cons x xs ih =>
    have hx : p x = true := h 0 (Nat.succ_pos _) (Nat.zero_le _)
    rw [List.takeWhile_cons, if_pos hx]
    cases j with
    | zero => exact List.mem_cons_self x _
    | succ j =>
      refine List.mem_cons_of_mem x (ih (Nat.lt_of_succ_lt_succ hj) ?_)
      intro m hm hmj
      exact h (m + 1) (Nat.succ_lt_succ hm) (Nat.succ_le_succ hmj)

/-! Soundness, early termination and panic propagation of the inner scan. -/

theorem innerScan_sound {c : Ctx} {idx loop_end : Nat} {l : List Nat}
    {L : List (Nat × Nat × FVal × FVal)}
    (h : innerScan c idx loop_end l = Except.ok L) :
    ∀ p ∈ L, ∃ s ∈ l, scanStep c idx loop_end s = StepRes.emit p := by
  induction l generalizing L with
  | nil =>
    simp [innerScan] at h
    subst h; intro p hp; cases hp
  | cons x xs ih =>
    rw [innerScan] at h
    cases hstep : scanStep c idx loop_end x with
    | brk =>
        rw [hstep] at h
        simp only [Except.ok.injEq] at h
        subst h; intro p hp; cases hp
    | panic => rw [hstep] at h; cases h
    | skip =>
        rw [hstep] at h
        intro p hp
        rcases ih h p hp with ⟨s, hs, hemit⟩
        exact ⟨s, List.mem_cons_of_mem x hs, hemit⟩
    | emit q =>
        rw [hstep] at h
        cases hrest : innerScan c idx loop_end xs with
        | error e => rw [hrest] at h; cases h
        | ok l' =>
            rw [hrest] at h
            simp only [Except.ok.injEq] at h
            subst h
            intro p hp
            rcases List.mem_cons.1 hp with hp | hp
            · exact ⟨x, List.mem_cons_self x xs, hp ▸ hstep⟩
            · rcases ih hrest p hp with ⟨s, hs, hemit⟩
              exact ⟨s, List.mem_cons_of_mem x hs, hemit⟩

theorem innerScan_take {c : Ctx} {idx loop_end : Nat} {l : List Nat} {k : Nat}
    (hk : k < l.length)
    (hbrk : scanStep c idx loop_end (l.get ⟨k, hk⟩) = StepRes.brk) :
    innerScan c idx loop_end l = innerScan c idx loop_end (l.take k) := by
  induction l generalizing k with
  | nil => cases hk
  | cons x xs ih =>
    cases k with
    | zero =>
      simp only [List.get] at hbrk
      simp [innerScan, hbrk, List.take]
    | succ k =>
      simp only [List.take]
      rw [innerScan, innerScan]
      cases hstep : scanStep c idx loop_end x <;> try rfl
      · exact ih (Nat.lt_of_succ_lt_succ hk) hbrk
      · rw [ih (Nat.lt_of_succ_lt_succ hk) hbrk]

theorem innerScan_error {c : Ctx} {idx loop_end : Nat} {l : List Nat} {j : Nat}
    (hj : j < l.length)
    (hreach : ∀ m, (hm : m < l.length) → m < j →
      scanStep c idx loop_end (l.get ⟨m, hm⟩) ≠ StepRes.brk ∧
      scanStep c idx loop_end (l.get ⟨m, hm⟩) ≠ StepRes.panic)
    (hpanic : scanStep c idx loop_end (l.get ⟨j, hj⟩) = StepRes.panic) :
    innerScan c idx loop_end l = Except.error () := by
  induction l generalizing j with
  | nil => cases hj
  | cons x xs ih =>
    cases j with
    | zero =>
      simp only [List.get] at hpanic
      simp [innerScan, hpanic]
    | succ j =>
      have hx := hreach 0 (Nat.succ_pos _) (Nat.succ_pos _)
      have htail := ih (Nat.lt_of_succ_lt_succ hj)
        (fun m hm hmj => hreach (m + 1) (Nat.succ_lt_succ hm) (Nat.succ_lt_succ hmj))
        hpanic
      rw [innerScan]
      cases hstep : scanStep c idx loop_end x with
      | brk => exact absurd hstep hx.1
      | panic => exact absurd hstep hx.2
      | skip => exact htail
      | emit q => rw [htail]

theorem scanEnds_error {c : Ctx} {beats_all : List Nat} {es : List Nat} {idx : Nat} {i : Nat}
    (hi : i < es.length)
    (hok : ∀ m, (hm : m < es.length) → m < i →
      ∃ lm, innerScan c (idx + m) (es.get ⟨m, hm⟩) beats_all = Except.ok lm)
    (herr : innerScan c (idx + i) (es.get ⟨i, hi⟩) beats_all = Except.error ()) :
    scanEnds c beats_all idx es = Except.error () := by
  induction es generalizing idx i with
  | nil => cases hi
  | cons e rest ih =>
    cases i with
    | zero =>
      simp only [List.get] at herr
      rw [scanEnds]
      rw [Nat.add_zero] at herr
      rw [herr]
    | succ i =>
      rcases hok 0 (Nat.succ_pos _) (Nat.succ_pos _) with ⟨l0, hl0⟩
      rw [Nat.add_zero] at hl0
      simp only [List.get] at hl0
      have htail := @ih (idx + 1) i (Nat.lt_of_succ_lt_succ hi)
        (fun m hm hmj => by
          rcases hok (m + 1) (Nat.succ_lt_succ hm) (Nat.succ_lt_succ hmj) with ⟨lm, hlm⟩
          refine ⟨lm, ?_⟩
          have harith : idx + 1 + m = idx + (m + 1) := by omega
          rw [harith]
          exact hlm)
        (by
          have harith : idx + 1 + i = idx + (i + 1) := by omega
          rw [harith]
          exact herr)
      rw [scanEnds, hl0, htail]

/-- Claim C6: degenerate empty inputs are not an error: when the beat list is
empty, or a feature matrix has zero columns while the bounds precondition on
the beat indices still holds (which forces the beat list to be empty), the
call returns the empty candidate sequence. -/
theorem C6_degenerate_empty_inputs (c : Ctx) (beats : List Nat)
    (h : beats = [] ∨ (c.chroma.cols = 0 ∧ ∀ b ∈ beats, b < c.chroma.cols)) :
    detect_loop_pairs c beats = Except.ok [] := by
  have hbe : beats = [] := by
    rcases h with h | ⟨hc, hb⟩
    · exact h
    · cases beats with
      | nil => rfl
      | cons x xs =>
          have := hb x (List.mem_cons_self x xs)
          omega
  subst hbe
  rfl

/-- Witness for C6 at a concrete call with an empty beat list. -/
theorem C6_witness :
    detect_loop_pairs
      (Ctx.mk (Mat.mk 0 0 (fun _ _ => fin 0))
      (Mat.mk 0 0 (fun _ _ => fin 0))
      [] 0 10 (fin 0)) [] = Except.ok [] :=
  C6_degenerate_empty_inputs _ [] (Or.inl rfl)

/-- Claim C7: a single-beat call whose beat is a valid column of both
matrices returns the empty sequence whenever `min_loop_duration ≥ 1`: the
only combination is the self pair of loop length 0, pruned by the minimum
duration (indeed it triggers the break before any feature access). -/
theorem C7_single_beat (c : Ctx) (b : Nat)
    (hmin : 1 ≤ c.min_loop_duration)
    (hch : b < c.chroma.cols) (hpw : b < c.power_db.cols) :
    detect_loop_pairs c [b] = Except.ok [] := by
  have hbrk : scanStep c 0 b b = StepRes.brk :=
    scanStep_eq_brk_iff.2 (by rw [usizeSub_self]; omega)
  unfold detect_loop_pairs
  rw [scanEnds, innerScan, hbrk, scanEnds]
  rfl

/-- Witness for C7 at a concrete single-beat call. -/
theorem C7_witness :
    detect_loop_pairs
      (Ctx.mk (Mat.mk 2 6 (fun _ _ => fin 0))
      (Mat.mk 2 6 (fun _ _ => fin 0))
      [fin 0] 1 10 (fin 0)) [5] = Except.ok [] :=
  C7_single_beat _ 5 (by decide) (by decide) (by decide)

/-- Claim C4: early-break pruning: as soon as the inner scan meets a
`loop_start` whose non-wrapped loop length is strictly below
`min_loop_duration`, the inner loop for that end position terminates — its
result equals the result of scanning only the strict prefix of the beat
list before that position, and every pair it emits has its start in that
prefix. -/
theorem C4_early_break (c : Ctx) (idx loop_end : Nat) (beats : List Nat) (k : Nat)
    (hk : k < beats.length)
    (hend : loop_end < U64)
    (hle : beats.get ⟨k, hk⟩ ≤ loop_end)
    (hshort : loop_end - beats.get ⟨k, hk⟩ < c.min_loop_duration) :
    innerScan c idx loop_end beats = innerScan c idx loop_end (beats.take k) ∧
    ∀ L, innerScan c idx loop_end (beats.take k) = Except.ok L →
      ∀ p ∈ L, p.1 ∈ beats.take k := by
  have hbrk : scanStep c idx loop_end (beats.get ⟨k, hk⟩) = StepRes.brk :=
    scanStep_eq_brk_iff.2 (by rw [usizeSub_of_le hle hend]; exact hshort)
  refine ⟨innerScan_take hk hbrk, ?_⟩
  intro L hL p hp
  rcases innerScan_sound hL p hp with ⟨s, hs, hemit⟩
  rcases scanStep_emit_spec hemit with ⟨ce, cs, tol, pe, pw, _, _, _, _, _, hpval, _⟩
  rw [hpval]
  exact hs

/-- Witness for C4 at a concrete call: the break fires at position 0, so the
scan equals the scan of the empty prefix. -/
theorem C4_witness :
    innerScan
      (Ctx.mk (Mat.mk 1 6 (fun _ _ => fin 0))
      (Mat.mk 1 6 (fun _ _ => fin 0))
      [fin 0] 1 10 (fin 0)) 0 5 [5] =
    innerScan
      (Ctx.mk (Mat.mk 1 6 (fun _ _ => fin 0))
      (Mat.mk 1 6 (fun _ _ => fin 0))
      [fin 0] 1 10 (fin 0)) 0 5 ([5].take 0) :=
  (C4_early_break _ 0 5 [5] 0 (by decide) (by decide) (by decide) (by decide)).1

/-- Claim C3: wraparound skip: with an ascending beat list of `usize`
values, when the inner scan for end position `i` reaches a start position
`k` whose beat exceeds the loop end, the unsigned subtraction wraps modulo
`2^64` to `2^64 − (loopStart − loopEnd)`, a value never below
`min_loop_duration` (reaching such a `k` forces `min_loop_duration = 0`, so
the early break never fires there), and whenever `max_loop_duration` is
less than that wrapped value the iteration is the generic too-long
`continue` (`StepRes.skip`), so no pair is emitted there; the behaviour at
`loopStart > loopEnd` is decided by the same two duration checks as every
other pair, with no special case. -/
theorem C3_wraparound_skip (c : Ctx) (beats : List Nat) (i k : Nat)
    (hsort : beats.Sorted (· ≤ ·))
    (hb : ∀ b ∈ beats, b < U64)
    (hi : i < beats.length) (hk : k < beats.length)
    (hgt : beats.get ⟨i, hi⟩ < beats.get ⟨k, hk⟩)
    (hreach : ∀ m, (hm : m < beats.length) → m < k →
      scanStep c i (beats.get ⟨i, hi⟩) (beats.get ⟨m, hm⟩) ≠ StepRes.brk) :
    usizeSub (beats.get ⟨i, hi⟩) (beats.get ⟨k, hk⟩)
        = U64 - (beats.get ⟨k, hk⟩ - beats.get ⟨i, hi⟩) ∧
    c.min_loop_duration ≤ usizeSub (beats.get ⟨i, hi⟩) (beats.get ⟨k, hk⟩) ∧
    (c.max_loop_duration < usizeSub (beats.get ⟨i, hi⟩) (beats.get ⟨k, hk⟩) →
      scanStep c i (beats.get ⟨i, hi⟩) (beats.get ⟨k, hk⟩) = StepRes.skip) := by
  have hik : i < k := by
    rcases Nat.lt_trichotomy i k with h | h | h
    · exact h
    · subst h; exact absurd hgt (lt_irrefl _)
    · have := hsort.rel_get_of_lt (a := ⟨k, hk⟩) (b := ⟨i, hi⟩) h
      omega
  have hmin0 : c.min_loop_duration = 0 := by
    have hstep := hreach i hi hik
    by_contra hne
    exact hstep (scanStep_eq_brk_iff.2 (by rw [usizeSub_self]; omega))
  have hwrap : usizeSub (beats.get ⟨i, hi⟩) (beats.get ⟨k, hk⟩)
      = U64 - (beats.get ⟨k, hk⟩ - beats.get ⟨i, hi⟩) :=
    usizeSub_of_lt hgt (hb _ (beats.get_mem k hk))
  refine ⟨hwrap, by rw [hmin0]; exact Nat.zero_le _, ?_⟩
  intro hmax
  unfold scanStep
  rw [if_neg (by omega), if_pos hmax]

/-- Witness for C3 at a concrete call: `beats = [0, 5]`, end position 0,
start position 1. -/
theorem C3_witness :
    usizeSub 0 5 = U64 - 5 ∧
    0 ≤ usizeSub 0 5 ∧
    (3 < usizeSub 0 5 →
      scanStep
        (Ctx.mk (Mat.mk 1 6 (fun _ _ => fin 0))
      (Mat.mk 1 6 (fun _ _ => fin 0))
      [fin 0, fin 0] 0 3 (fin 0)) 0 0 5 = StepRes.skip) := by
  have h := C3_wraparound_skip
    (Ctx.mk (Mat.mk 1 6 (fun _ _ => fin 0))
      (Mat.mk 1 6 (fun _ _ => fin 0))
      [fin 0, fin 0] 0 3 (fin 0)) [0, 5] 0 1
    (by decide) (by decide) (by decide) (by decide) (by decide)
    (by
      intro m hm hmk
      have hm0 : m = 0 := by omega
      subst hm0
      intro hbrk
      have := scanStep_eq_brk_iff.1 hbrk
      rw [usizeSub_self] at this
      exact absurd this (by decide))
  exact h

theorem emitOf_eq_some {c : Ctx} {idx loop_end loop_start : Nat}
    {p : Nat × Nat × FVal × FVal}
    (h : emitOf c idx loop_end loop_start = some p) :
    scanStep c idx loop_end loop_start = StepRes.emit p := by
  unfold emitOf at h
  cases hstep : scanStep c idx loop_end loop_start with
  | emit q => rw [hstep] at h; cases h; rfl
  | brk => rw [hstep] at h; cases h
  | skip => rw [hstep] at h; cases h
  | panic => rw [hstep] at h; cases h

/-- Claim C1 (amended): output soundness under the additional hypothesis
that `max_loop_duration + b < 2^64` for every beat `b` (so a wrapped
duration can never fit in the duration window; without it the claim is
false, see the counterexample): every emitted pair has `loopStart ≤
loopEnd`, its non-underflowing loop length within the duration window, its
chroma distance equal to the L2 distance of the chroma columns at `loopEnd`
and `loopStart` and at most the tolerance stored at an end position holding
`loopEnd`, and its loudness difference at most
`acceptable_loudness_difference`. -/
theorem C1_output_soundness (c : Ctx) (beats : List Nat)
    (hch : ∀ b ∈ beats, b < c.chroma.cols)
    (hpw : ∀ b ∈ beats, b < c.power_db.cols)
    (htol : c.acceptable_chroma_deviation.length = beats.length)
    (hmaxw : ∀ b ∈ beats, c.max_loop_duration + b < U64) :
    ∃ L, detect_loop_pairs c beats = Except.ok L ∧
      ∀ p ∈ L,
        p.1 ≤ p.2.1 ∧
        c.min_loop_duration ≤ p.2.1 - p.1 ∧
        p.2.1 - p.1 ≤ c.max_loop_duration ∧
        ∃ (i : Nat) (t : FVal) (ce cs : List FVal),
          beats[i]? = some p.2.1 ∧
          c.acceptable_chroma_deviation[i]? = some t ∧
          c.chroma.col? p.2.1 = some ce ∧
          c.chroma.col? p.1 = some cs ∧
          p.2.2.1 = l2_norm (List.zipWith fsub ce cs) ∧
          fle p.2.2.1 t = true ∧
          fle p.2.2.2 c.acceptable_loudness_difference = true := by
  refine ⟨nestedScanOrder c beats,
    detect_loop_pairs_ok hch hpw (htol ▸ Nat.le_refl _), ?_⟩
  intro p hp
  rcases List.mem_flatMap.1 hp with ⟨ie, hie, hpe⟩
  rcases List.mem_filterMap.1 hpe with ⟨s, hstw, hEmit⟩
  have hstep := emitOf_eq_some hEmit
  rcases scanStep_emit_spec hstep with
    ⟨ce, cs, t, pe, pwc, hce, hcs, ht, hpe2, hpw2, hpval, hmn, hmx, hd, hl⟩
  have hsmem : s ∈ beats := mem_of_mem_takeWhile hstw
  have hieget : beats[ie.1]? = some ie.2 := List.mem_enum_iff_getElem?.1 hie
  have hie2mem : ie.2 ∈ beats := by
    rcases List.getElem?_eq_some.1 hieget with ⟨hlen, hget⟩
    exact hget ▸ List.getElem_mem hlen
  have hsU : s < U64 := by have := hmaxw s hsmem; omega
  have heU : ie.2 < U64 := by have := hmaxw ie.2 hie2mem; omega
  subst hpval
  have hsle : s ≤ ie.2 := by
    by_contra hgt
    push_neg at hgt
    have hw : usizeSub ie.2 s = U64 - (s - ie.2) := usizeSub_of_lt hgt hsU
    have hbig : c.max_loop_duration < usizeSub ie.2 s := by
      have h1 := hmaxw s hsmem
      rw [hw]; omega
    omega
  have hsub : usizeSub ie.2 s = ie.2 - s := usizeSub_of_le hsle heU
  rw [hsub] at hmn hmx
  exact ⟨hsle, hmn, hmx, ie.1, t, ce, cs, hieget, ht, hce, hcs, rfl, hd, hl⟩

/-- Counterexample to claim C1 as stated: a call meeting the preconditions
(beats 0 and 5 are valid columns of the 1×6 matrices, tolerance list of
length 2), with `min_loop_duration = 0` and `max_loop_duration = 2^64 − 1`,
emits the pair `(loopStart = 5, loopEnd = 0, 0, 0)` whose wrapped loop
length fits the window although `loopStart > loopEnd`, so `loopEnd −
loopStart` cannot be computed without underflow. -/
theorem C1_counterexample :
    detect_loop_pairs
      (Ctx.mk (Mat.mk 1 6 (fun _ _ => fin 0))
      (Mat.mk 1 6 (fun _ _ => fin 0))
      [fin 0, fin 0] 0 18446744073709551615 (fin 0)) [0, 5] =
    Except.ok [(0, 0, fin 0, fin 0), (5, 0, fin 0, fin 0),
               (0, 5, fin 0, fin 0), (5, 5, fin 0, fin 0)] ∧
    ¬ (5 ≤ 0) ∧ 0 < 6 ∧ 5 < 6 := by
  refine ⟨?_, by decide, by decide, by decide⟩
  norm_num [detect_loop_pairs, scanEnds, innerScan, scanStep, Mat.col?, usizeSub, U64,
    l2_norm, db_diff, fmul, fadd, fsub, fmax, fabs, fle, fsqrt, ratSqrt, natSqrt, sqrtFuel,
    List.range, List.range.loop]

/-- Witness for the amended C1 at a concrete call. -/
theorem C1_witness :
    ∃ L,
      detect_loop_pairs
        (Ctx.mk (Mat.mk 1 6 (fun _ _ => fin 0))
      (Mat.mk 1 6 (fun _ _ => fin 0))
      [fin 0, fin 0] 0 5 (fin 0)) [0, 5] = Except.ok L ∧
      ∀ p ∈ L,
        p.1 ≤ p.2.1 ∧
        0 ≤ p.2.1 - p.1 ∧
        p.2.1 - p.1 ≤ 5 ∧
        ∃ (i : Nat) (t : FVal) (ce cs : List FVal),
          [0, 5][i]? = some p.2.1 ∧
          [fin 0, fin 0][i]? = some t ∧
          Mat.col? (Mat.mk 1 6 (fun _ _ => fin 0)) p.2.1 = some ce ∧
          Mat.col? (Mat.mk 1 6 (fun _ _ => fin 0)) p.1 = some cs ∧
          p.2.2.1 = l2_norm (List.zipWith fsub ce cs) ∧
          fle p.2.2.1 t = true ∧
          fle p.2.2.2 (fin 0) = true :=
  C1_output_soundness _ [0, 5] (by decide) (by decide) (by decide) (by decide)

/-- Claim C8: output ordering: under the preconditions the emitted sequence
is exactly `nestedScanOrder`, the sequence obtained by grouping pairs by
ascending end position in the beat list and, within one end position, by
ascending inner scan order over the candidate starts — in particular no
sorting by chroma distance or loudness difference happens. -/
theorem C8_output_ordering (c : Ctx) (beats : List Nat)
    (hch : ∀ b ∈ beats, b < c.chroma.cols)
    (hpw : ∀ b ∈ beats, b < c.power_db.cols)
    (htol : c.acceptable_chroma_deviation.length = beats.length) :
    detect_loop_pairs c beats = Except.ok (nestedScanOrder c beats) :=
  detect_loop_pairs_ok hch hpw (htol ▸ Nat.le_refl _)

/-- Witness for C8 at a concrete call. -/
theorem C8_witness :
    detect_loop_pairs
      (Ctx.mk (Mat.mk 1 6 (fun _ _ => fin 0))
      (Mat.mk 1 6 (fun _ _ => fin 0))
      [fin 0, fin 0] 1 5 (fin 0)) [0, 5] =
    Except.ok (nestedScanOrder
      (Ctx.mk (Mat.mk 1 6 (fun _ _ => fin 0))
      (Mat.mk 1 6 (fun _ _ => fin 0))
      [fin 0, fin 0] 1 5 (fin 0)) [0, 5]) :=
  C8_output_ordering _ [0, 5] (by decide) (by decide) (by decide)

/-- Claim C2: completeness (no false negatives): under the preconditions
and a strictly ascending beat list of `usize` values, every pair of beat
positions `(j, i)` whose non-underflowing duration lies in the duration
window, whose chroma L2 distance passes the tolerance at the end position,
and whose loudness difference passes the loudness tolerance is emitted —
unless the inner scan for end position `i` was terminated earlier by the
early break (with an ascending beat list that disjunct can in fact never
hold, and the proof establishes the emission disjunct directly). -/
theorem C2_completeness (c : Ctx) (beats : List Nat) (i j : Nat)
    (hsort : beats.Sorted (· < ·))
    (hch : ∀ b ∈ beats, b < c.chroma.cols)
    (hpw : ∀ b ∈ beats, b < c.power_db.cols)
    (htol : c.acceptable_chroma_deviation.length = beats.length)
    (hb : ∀ b ∈ beats, b < U64)
    (hi : i < beats.length) (hj : j < beats.length)
    (hse : beats.get ⟨j, hj⟩ ≤ beats.get ⟨i, hi⟩)
    (hmin : c.min_loop_duration ≤ beats.get ⟨i, hi⟩ - beats.get ⟨j, hj⟩)
    (hmax : beats.get ⟨i, hi⟩ - beats.get ⟨j, hj⟩ ≤ c.max_loop_duration)
    (ce cs pe pw : List FVal) (t : FVal)
    (hce : c.chroma.col? (beats.get ⟨i, hi⟩) = some ce)
    (hcs : c.chroma.col? (beats.get ⟨j, hj⟩) = some cs)
    (ht : c.acceptable_chroma_deviation[i]? = some t)
    (hpec : c.power_db.col? (beats.get ⟨i, hi⟩) = some pe)
    (hpwc : c.power_db.col? (beats.get ⟨j, hj⟩) = some pw)
    (hd : fle (l2_norm (List.zipWith fsub ce cs)) t = true)
    (hl : fle (db_diff pe pw) c.acceptable_loudness_difference = true) :
    ∃ L, detect_loop_pairs c beats = Except.ok L ∧
      ((beats.get ⟨j, hj⟩, beats.get ⟨i, hi⟩,
          l2_norm (List.zipWith fsub ce cs), db_diff pe pw) ∈ L ∨
        ∃ m, ∃ (hm : m < beats.length), m < j ∧
          usizeSub (beats.get ⟨i, hi⟩) (beats.get ⟨m, hm⟩) < c.min_loop_duration) := by
  have heU : beats.get ⟨i, hi⟩ < U64 := hb _ (beats.get_mem i hi)
  have hsubj : usizeSub (beats.get ⟨i, hi⟩) (beats.get ⟨j, hj⟩)
      = beats.get ⟨i, hi⟩ - beats.get ⟨j, hj⟩ := usizeSub_of_le hse heU
  refine ⟨nestedScanOrder c beats,
    detect_loop_pairs_ok hch hpw (htol ▸ Nat.le_refl _), Or.inl ?_⟩
  apply List.mem_flatMap.2
  refine ⟨(i, beats.get ⟨i, hi⟩), ?_, ?_⟩
  · exact List.mem_enum_iff_getElem?.2
      (by rw [List.getElem?_eq_getElem hi]; rw [List.get_eq_getElem])
  · unfold emitsFor
    apply List.mem_filterMap.2
    refine ⟨beats.get ⟨j, hj⟩, ?_, ?_⟩
    · apply get_mem_takeWhile_of_forall hj
      intro m hm hmj
      have hmle : beats.get ⟨m, hm⟩ ≤ beats.get ⟨j, hj⟩ := by
        rcases Nat.lt_or_ge m j with hlt | hge
        · exact le_of_lt (hsort.rel_get_of_lt (by exact hlt))
        · have : m = j := by omega
          subst this; exact le_refl _
      have hsubm : usizeSub (beats.get ⟨i, hi⟩) (beats.get ⟨m, hm⟩)
          = beats.get ⟨i, hi⟩ - beats.get ⟨m, hm⟩ :=
        usizeSub_of_le (le_trans hmle hse) heU
      simp only [innerPred, hsubm, decide_eq_true_eq]
      omega
    · have hstep := scanStep_eq_emit hce hcs ht hpec hpwc
        (by rw [hsubj]; exact hmin) (by rw [hsubj]; exact hmax) hd hl
      simp only [List.get_eq_getElem] at hstep
      simp [emitOf, hstep]

/-- Witness for C2 at a concrete call: the pair `(0, 5)` passes all three
filters and is emitted. -/
theorem C2_witness :
    ∃ L,
      detect_loop_pairs (Ctx.mk (Mat.mk 1 6 (fun _ _ => fin 0))
        (Mat.mk 1 6 (fun _ _ => fin 0))
        [fin 0, fin 0] 1 5 (fin 0)) [0, 5] = Except.ok L ∧
      (([0, 5].get ⟨0, by decide⟩, [0, 5].get ⟨1, by decide⟩,
          l2_norm (List.zipWith fsub [fin 0] [fin 0]), db_diff [fin 0] [fin 0]) ∈ L ∨
        ∃ m, ∃ (hm : m < [0, 5].length), m < 0 ∧
          usizeSub ([0, 5].get ⟨1, by decide⟩) ([0, 5].get ⟨m, hm⟩) < 1) :=
  C2_completeness _ [0, 5] 1 0 (by decide) (by decide) (by decide) (by decide)
    (by decide) (by decide) (by decide) (by decide) (by decide) (by decide)
    [fin 0] [fin 0] [fin 0] [fin 0] (fin 0)
    (by norm_num [Mat.col?, List.range, List.range.loop])
    (by norm_num [Mat.col?, List.range, List.range.loop])
    (by decide)
    (by norm_num [Mat.col?, List.range, List.range.loop])
    (by norm_num [Mat.col?, List.range, List.range.loop])
    (by norm_num [l2_norm, fmul, fadd, fsub, fle, fsqrt, ratSqrt, natSqrt, sqrtFuel])
    (by norm_num [db_diff, fmax, fsub, fabs, fle, FVal.neginf])

/-- Counterexample to claim C5 as stated: the beat index 5 is not a valid
column index of the 1×1 matrices (a precondition violation), yet with
`min_loop_duration = 1` the self pair is pruned by the early break before
any feature access, so the call returns normally (with the empty sequence)
instead of failing with an error. -/
theorem C5_counterexample :
    detect_loop_pairs (Ctx.mk (Mat.mk 1 1 (fun _ _ => fin 0))
        (Mat.mk 1 1 (fun _ _ => fin 0))
        [fin 0] 1 10 (fin 0)) [5] = Except.ok [] ∧
    ¬ (5 < (Mat.mk 1 1 (fun _ _ => fin 0)).cols) := by
  constructor
  · norm_num [detect_loop_pairs, scanEnds, innerScan, scanStep, usizeSub, U64]
  · decide

/-- Claim C5 (amended): a precondition violation aborts the call exactly
when the scan actually reaches the violating access: if the inner scan for
end position `i` reaches start position `j` (no earlier break or panic) and
the iteration there panics (an out-of-bounds feature-column access or
tolerance lookup), while the inner scans of all earlier end positions
completed normally, then the whole call returns an explicit error — and, the
result being an error, no candidate pairs are returned.  (Violations pruned
by the duration checks before being accessed do not abort the call, see the
counterexample.) -/
theorem C5_reached_violation_aborts (c : Ctx) (beats : List Nat) (i j : Nat)
    (hi : i < beats.length) (hj : j < beats.length)
    (hearlier : ∀ m, (hm : m < beats.length) → m < i →
      ∃ lm, innerScan c m (beats.get ⟨m, hm⟩) beats = Except.ok lm)
    (hreach : ∀ m, (hm : m < beats.length) → m < j →
      scanStep c i (beats.get ⟨i, hi⟩) (beats.get ⟨m, hm⟩) ≠ StepRes.brk ∧
      scanStep c i (beats.get ⟨i, hi⟩) (beats.get ⟨m, hm⟩) ≠ StepRes.panic)
    (hpanic : scanStep c i (beats.get ⟨i, hi⟩) (beats.get ⟨j, hj⟩) = StepRes.panic) :
    detect_loop_pairs c beats = Except.error () := by
  have herr : innerScan c i (beats.get ⟨i, hi⟩) beats = Except.error () :=
    innerScan_error hj hreach hpanic
  unfold detect_loop_pairs
  exact @scanEnds_error c beats beats 0 i hi
    (fun m hm hmi => by rw [Nat.zero_add]; exact hearlier m hm hmi)
    (by rw [Nat.zero_add]; exact herr)

/-- Witness for the amended C5 at a concrete call: with
`min_loop_duration = 0` the self pair of beat 5 passes the duration window,
the chroma column access at index 5 of a 1×1 matrix is out of bounds, and
the call errors. -/
theorem C5_witness :
    detect_loop_pairs (Ctx.mk (Mat.mk 1 1 (fun _ _ => fin 0))
        (Mat.mk 1 1 (fun _ _ => fin 0))
        [fin 0] 0 10 (fin 0)) [5] = Except.error () :=
  C5_reached_violation_aborts _ [5] 0 0 (by decide) (by decide)
    (fun m hm hmi => absurd hmi (Nat.not_lt_zero m))
    (fun m hm hmj => absurd hmj (Nat.not_lt_zero m))
    (by norm_num [scanStep, Mat.col?, usizeSub, U64])

theorem fle_db_diff_empty (v1 v2 : List FVal) (h : v1 = [] ∨ v2 = []) (q : ℚ) :
    fle (db_diff v1 v2) (fin q) = false := by
  rcases h with h | h
  · subst h
    cases hm : v2.foldl fmax neginf <;>
      simp [db_diff, hm, fsub, fabs, fle]
  · subst h
    cases hm : v1.foldl fmax neginf <;>
      simp [db_diff, hm, fsub, fabs, fle]

/-- Claim C9: the loudness difference primitive computes the absolute
difference of the two peak band loudnesses, the peak of a vector being its
fold by `f32::max` from `-inf` (so `-inf` for an empty vector); consequently
when either compared column is empty the difference (`+inf` or NaN) never
passes a finite loudness tolerance, and the engine never emits a pair when
the power matrix has zero bands and the tolerance is finite. -/
theorem C9_loudness_difference (v1 v2 : List FVal) :
    db_diff v1 v2 = fabs (fsub (v1.foldl fmax neginf) (v2.foldl fmax neginf)) ∧
    ((v1 = [] ∨ v2 = []) → ∀ q : ℚ, fle (db_diff v1 v2) (fin q) = false) ∧
    (∀ (c : Ctx) (idx loop_end loop_start : Nat) (p : Nat × Nat × FVal × FVal),
      c.power_db.rows = 0 →
      (∃ qa : ℚ, c.acceptable_loudness_difference = fin qa) →
      scanStep c idx loop_end loop_start ≠ StepRes.emit p) := by
  refine ⟨rfl, fle_db_diff_empty v1 v2, ?_⟩
  intro c idx loop_end loop_start p hrows hacc hemit
  rcases hacc with ⟨qa, hqa⟩
  rcases scanStep_emit_spec hemit with
    ⟨ce, cs, t, pe, pwc, _, _, _, hpe, hpwc, _, _, _, _, hl⟩
  have hpe0 : pe = [] := by
    unfold Mat.col? at hpe
    by_cases hcond : loop_end < c.power_db.cols
    · rw [if_pos hcond] at hpe
      have h2 := Option.some.inj hpe
      rw [hrows] at h2
      simpa using h2.symm
    · rw [if_neg hcond] at hpe; cases hpe
  subst hpe0
  rw [hqa] at hl
  rw [fle_db_diff_empty [] pwc (Or.inl rfl) qa] at hl
  cases hl

/-- Witness for C9: an empty column against a nonempty one never passes a
finite tolerance. -/
theorem C9_witness : fle (db_diff [] [fin 3]) (fin 1000) = false :=
  (C9_loudness_difference [] [fin 3]).2.1 (Or.inl rfl) 1000

theorem ratSqrt_zero : ratSqrt 0 = 0 := by
  norm_num [ratSqrt, natSqrt, sqrtFuel]

theorem foldl_fadd_zero {l : List FVal} (h : ∀ x ∈ l, x = fin 0) :
    l.foldl fadd (fin 0) = fin 0 := by
  induction l with
  | nil => rfl
  | cons x xs ih =>
    have hx := h x (List.mem_cons_self x xs)
    subst hx
    rw [List.foldl_cons]
    have h0 : fadd (fin 0) (fin 0) = fin 0 := by simp [fadd]
    rw [h0]
    exact ih fun y hy => h y (List.mem_cons_of_mem _ hy)

theorem zipWith_fsub_self_zero {l : List FVal} (h : ∀ x ∈ l, ∃ q : ℚ, x = fin q) :
    ∀ x ∈ List.zipWith fsub l l, x = fin 0 := by
  induction l with
  | nil => intro x hx; cases hx
  | cons a as ih =>
    intro x hx
    rcases h a (List.mem_cons_self a as) with ⟨qa, hqa⟩
    subst hqa
    rw [List.zipWith_cons_cons] at hx
    rcases List.mem_cons.1 hx with hx | hx
    · rw [hx]; simp [fsub]
    · exact ih (fun y hy => h y (List.mem_cons_of_mem _ hy)) x hx

theorem l2_norm_self_zero {l : List FVal} (h : ∀ x ∈ l, ∃ q : ℚ, x = fin q) :
    l2_norm (List.zipWith fsub l l) = fin 0 := by
  unfold l2_norm
  have hz : ∀ x ∈ (List.zipWith fsub l l).map (fun x => fmul x x), x = fin 0 := by
    intro x hx
    rcases List.mem_map.1 hx with ⟨y, hy, hxy⟩
    have := zipWith_fsub_self_zero h y hy
    subst this
    rw [← hxy]
    simp [fmul]
  rw [foldl_fadd_zero hz]
  simp [fsqrt, ratSqrt_zero]

theorem foldl_fmax_fin {l : List FVal} (h : ∀ x ∈ l, ∃ q : ℚ, x = fin q) :
    ∀ q0 : ℚ, ∃ qm : ℚ, l.foldl fmax (fin q0) = fin qm := by
  induction l with
  | nil => intro q0; exact ⟨q0, rfl⟩
  | cons x xs ih =>
    intro q0
    rcases h x (List.mem_cons_self x xs) with ⟨qx, hqx⟩
    subst hqx
    rw [List.foldl_cons]
    have h1 : ∃ q1 : ℚ, fmax (fin q0) (fin qx) = fin q1 := by
      by_cases hc : fle (fin q0) (fin qx) = true
      · exact ⟨qx, by simp [fmax, hc]⟩
      · exact ⟨q0, by simp [fmax, hc]⟩
    rcases h1 with ⟨q1, hq1⟩
    rw [hq1]
    exact ih (fun y hy => h y (List.mem_cons_of_mem _ hy)) q1

theorem db_diff_self_fin {l : List FVal} (hne : l ≠ [])
    (h : ∀ x ∈ l, ∃ q : ℚ, x = fin q) :
    db_diff l l = fin 0 := by
  cases l with
  | nil => exact absurd rfl hne
  | cons x xs =>
    rcases h x (List.mem_cons_self x xs) with ⟨qx, hqx⟩
    subst hqx
    unfold db_diff
    rw [List.foldl_cons]
    have h1 : fmax neginf (fin qx) = fin qx := by simp [fmax, fle]
    rw [h1]
    rcases foldl_fmax_fin (fun y hy => h y (List.mem_cons_of_mem _ hy)) qx with ⟨qm, hqm⟩
    rw [hqm]
    simp [fsub, fabs]

/-- Claim C10: implicit self-pair emission: with `min_loop_duration = 0`,
valid beat indices, finite feature entries, at least one power band,
nonnegative finite tolerances and a nonnegative finite loudness tolerance,
the engine emits the degenerate self pair `(b, b, 0.0, 0.0)` for every
entry `b` of the beat list. -/
theorem C10_self_pair_emission (c : Ctx) (beats : List Nat)
    (hmin : c.min_loop_duration = 0)
    (hch : ∀ b ∈ beats, b < c.chroma.cols)
    (hpw : ∀ b ∈ beats, b < c.power_db.cols)
    (htol : c.acceptable_chroma_deviation.length = beats.length)
    (hchfin : ∀ r j, ∃ q : ℚ, c.chroma.entry r j = fin q)
    (hpwfin : ∀ r j, ∃ q : ℚ, c.power_db.entry r j = fin q)
    (hrows : 1 ≤ c.power_db.rows)
    (htolpos : ∀ t ∈ c.acceptable_chroma_deviation, ∃ qt : ℚ, 0 ≤ qt ∧ t = fin qt)
    (hacc : ∃ qa : ℚ, 0 ≤ qa ∧ c.acceptable_loudness_difference = fin qa) :
    ∃ L, detect_loop_pairs c beats = Except.ok L ∧
      ∀ b ∈ beats, (b, b, fin 0, fin 0) ∈ L := by
  refine ⟨nestedScanOrder c beats,
    detect_loop_pairs_ok hch hpw (htol ▸ Nat.le_refl _), ?_⟩
  intro b hbmem
  rcases List.mem_iff_get.1 hbmem with ⟨⟨i, hi⟩, hget⟩
  apply List.mem_flatMap.2
  refine ⟨(i, b), ?_, ?_⟩
  · apply List.mem_enum_iff_getElem?.2
    rw [List.getElem?_eq_getElem hi, ← hget, List.get_eq_getElem]
  · unfold emitsFor
    apply List.mem_filterMap.2
    refine ⟨b, ?_, ?_⟩
    · rw [← hget]
      apply get_mem_takeWhile_of_forall hi
      intro m hm hmi
      simp [innerPred, hmin]
    · have hbch : b < c.chroma.cols := hch b hbmem
      have hbpw : b < c.power_db.cols := hpw b hbmem
      have hce : c.chroma.col? b
          = some ((List.range c.chroma.rows).map fun r => c.chroma.entry r b) := by
        simp [Mat.col?, hbch]
      have hpe : c.power_db.col? b
          = some ((List.range c.power_db.rows).map fun r => c.power_db.entry r b) := by
        simp [Mat.col?, hbpw]
      have hitol : i < c.acceptable_chroma_deviation.length := htol ▸ hi
      have ht : c.acceptable_chroma_deviation[i]?
          = some c.acceptable_chroma_deviation[i] := List.getElem?_eq_getElem hitol
      rcases htolpos _ (List.getElem_mem hitol) with ⟨qt, hqt0, hqteq⟩
      have hdist : l2_norm (List.zipWith fsub
          ((List.range c.chroma.rows).map fun r => c.chroma.entry r b)
          ((List.range c.chroma.rows).map fun r => c.chroma.entry r b)) = fin 0 := by
        apply l2_norm_self_zero
        intro x hx
        rcases List.mem_map.1 hx with ⟨r, _, hxr⟩
        exact hxr ▸ hchfin r b
      have hloudv : db_diff
          ((List.range c.power_db.rows).map fun r => c.power_db.entry r b)
          ((List.range c.power_db.rows).map fun r => c.power_db.entry r b) = fin 0 := by
        apply db_diff_self_fin
        · apply List.ne_nil_of_length_pos
          rw [List.length_map, List.length_range]
          omega
        · intro x hx
          rcases List.mem_map.1 hx with ⟨r, _, hxr⟩
          exact hxr ▸ hpwfin r b
      rcases hacc with ⟨qa, hqa0, hqaeq⟩
      have hstep := scanStep_eq_emit hce hce ht hpe hpe
        (by rw [usizeSub_self, hmin])
        (by rw [usizeSub_self]; exact Nat.zero_le _)
        (by rw [hdist, hqteq]; simp [fle, hqt0])
        (by rw [hloudv, hqaeq]; simp [fle, hqa0])
      simp only [hdist, hloudv] at hstep
      simp [emitOf, hstep]

/-- Witness for C10 at a concrete call: both self pairs of `beats = [0, 5]`
are emitted. -/
theorem C10_witness :
    ∃ L,
      detect_loop_pairs (Ctx.mk (Mat.mk 1 6 (fun _ _ => fin 0))
        (Mat.mk 1 6 (fun _ _ => fin 0))
        [fin 0, fin 0] 0 5 (fin 0)) [0, 5] = Except.ok L ∧
      ∀ b ∈ [0, 5], (b, b, fin 0, fin 0) ∈ L :=
  C10_self_pair_emission _ [0, 5] rfl (by decide) (by decide) (by decide)
    (fun _ _ => ⟨0, rfl⟩) (fun _ _ => ⟨0, rfl⟩) (by decide)
    (by
      intro t ht
      simp only [List.mem_cons, List.not_mem_nil, or_false] at ht
      rcases ht with h | h <;> exact ⟨0, le_refl 0, by rw [h]⟩)
    ⟨0, le_refl 0, rfl⟩

end RustAnalysis
